import Mathlib

set_option maxRecDepth 65536

/-!
# Verification of the pre-commit documentation gate

Shallow embedding of `src/hooks/pre_commit_docs_check.py`.

Modeling conventions:
* Paths handed to `os.path.exists` are modeled relative to the project root
  (`os.path.join(project_dir, "src", "docs")` becomes the prefix `"src/docs/"`);
  the filesystem is an abstract predicate `fs : String → Bool`.
* Python string operations on code points (`s[:300]`, `str.split("/")`,
  `str.strip()`, `str.lower()`, `str.capitalize()`) are modeled on `List Char`
  with ASCII case folding, matching Python's behaviour on ASCII input.
* The regex classes `\w` and `\s` of `re.search(r'\bgit\s+commit\b', ...)` are
  modeled by their ASCII parts (`[A-Za-z0-9_]` and the six ASCII space chars).
* `subprocess.run(..., timeout=90)` either completes with an exit code and a
  captured stderr, or raises `TimeoutExpired`; the latter is represented by
  `RunResult.timedOut`.  `check_build` has no `try`/`except`, so a timeout
  propagates: this is modeled with `Except BuildExn`.
* A Python `set` is modeled as a duplicate-free list built in insertion order;
  no theorem below depends on iteration order.
-/

namespace PreCommitDocsCheck

/-! ### Character classes -/

/-- ASCII part of the regex class `\w`: letters, digits and underscore. -/
def isWordCh (c : Char) : Bool := c.isAlphanum || c == '_'

/-- ASCII part of the regex class `\s` (also Python's `str.strip` set):
space, tab, newline, carriage return, vertical tab, form feed. -/
def isWsCh (c : Char) : Bool :=
  c == ' ' || c == Char.ofNat 9 || c == Char.ofNat 10 ||
  c == Char.ofNat 13 || c == Char.ofNat 11 || c == Char.ofNat 12

/-- The ASCII apostrophe character. -/
def quoteCh : Char := Char.ofNat 39

/-! ### List-of-characters primitives -/

/-- `startsWithL l pat` holds when `pat` occurs at the front of `l`. -/
def startsWithL : List Char → List Char → Bool
  | _, [] => true
  | [], _ :: _ => false
  | a :: as, b :: bs => a == b && startsWithL as bs

/-- `containsL l pat`: `pat` occurs somewhere inside `l`
(the model of Python's `pat in l`). -/
def containsL : List Char → List Char → Bool
  | [], pat => startsWithL [] pat
  | c :: rest, pat => startsWithL (c :: rest) pat || containsL rest pat

/-- `endsWithL l pat`: `pat` occurs at the end of `l`. -/
def endsWithL (l pat : List Char) : Bool := startsWithL l.reverse pat.reverse

/-- Model of Python's `s.startswith(p)`. -/
def strStartsWith (s p : String) : Bool := startsWithL s.data p.data

/-- Model of Python's `p in s` on strings. -/
def strContainsB (s p : String) : Bool := containsL s.data p.data

/-- Model of Python's `s.endswith(p)`. -/
def strEndsWithB (s p : String) : Bool := endsWithL s.data p.data

/-- Model of Python's `s.lower()` (ASCII case folding). -/
def lowerStr (s : String) : String := String.mk (s.data.map Char.toLower)

/-- Model of Python's slicing `s[:n]` (first `n` code points). -/
def pyTake (n : Nat) (s : String) : String := String.mk (s.data.take n)

/-- Model of Python's `s.capitalize()`: first character upper-cased,
the rest lower-cased (ASCII). -/
def pyCapitalize (s : String) : String :=
  match s.data with
  | [] => ""
  | c :: rest => String.mk (c.toUpper :: rest.map Char.toLower)

/-- Model of Python's `s.strip()`: whitespace removed from both ends. -/
def pyStrip (s : String) : String :=
  String.mk (((s.data.dropWhile isWsCh).reverse.dropWhile isWsCh).reverse)

/-- Split a character list at every occurrence of `sep`
(the model of Python's `s.split(sep)` for a one-character separator:
always at least one group, empty groups preserved). -/
def splitOnCh (sep : Char) : List Char → List (List Char)
  | [] => [[]]
  | c :: rest =>
    let r := splitOnCh sep rest
    if c = sep then [] :: r
    else
      match r with
      | [] => [[c]]
      | grp :: rs => (c :: grp) :: rs

/-- Model of Python's `s.split(sep)` for a one-character separator. -/
def pySplit (sep : Char) (s : String) : List String :=
  (splitOnCh sep s.data).map String.mk

/-- Model of Python's `sep.join(xs)`. -/
def joinSep (sep : String) : List String → String
  | [] => ""
  | x :: xs =>
    match xs with
    | [] => x
    | y :: ys => x ++ sep ++ joinSep sep (y :: ys)

/-! ### The commit classifier: `is_git_commit`

Model of `re.search(r'\bgit\s+commit\b', command)`:
scan every position of the command; at a position the pattern matches when
the previous character is not a word character (the `\b` before `git`,
`git` being made of word characters), the text continues with `git`, one or
more whitespace characters, `commit`, and the following character (if any)
is not a word character (the `\b` after `commit`). -/

def gitL : List Char := "git".data

def commitL : List Char := "commit".data

/-- The next character, if any, is not a word character (`\b` after a word). -/
def headNonWord (l : List Char) : Bool :=
  match l.head? with
  | some c => !isWordCh c
  | none => true

/-- Match `commit\b` at the front of `l`. -/
def expectCommit (l : List Char) : Bool :=
  startsWithL l commitL && headNonWord (l.drop commitL.length)

/-- Match `git\s+commit\b` at the front of `l`. -/
def matchGitCommitAt (l : List Char) : Bool :=
  startsWithL l gitL &&
    (let rest := l.drop gitL.length
     !(rest.takeWhile isWsCh).isEmpty && expectCommit (rest.dropWhile isWsCh))

/-- Scan all positions; `prevWord` records whether the character just before
the current position is a word character (false at the start of the string). -/
def searchGC : List Char → Bool → Bool
  | [], _ => false
  | c :: rest, prevWord =>
    (!prevWord && matchGitCommitAt (c :: rest)) || searchGC rest (isWordCh c)

/-- `is_git_commit` from the source: `re.search(r'\bgit\s+commit\b', command)`. -/
def is_git_commit (command : String) : Bool := searchGC command.data false

/-! ### Feature inference: `extract_feature_names` -/

/-- The fixed architectural-layer vocabulary from the source. -/
def layerNames : List String := ["controller", "service", "repository", "dto", "entity", "mapper"]

def isLayer (s : String) : Bool := layerNames.contains s

/-- Index of the first element satisfying `p`
(models the `for i, part in enumerate(parts): ... break` scan). -/
def firstIdx {α : Type} (p : α → Bool) : List α → Option Nat
  | [] => none
  | x :: xs => if p x then some 0 else (firstIdx p xs).map (· + 1)

/-- Model of `pathlib.Path(f).name` for the `/`-separated relative paths
produced by `git diff --name-only`: the last nonempty path segment. -/
def pathName (f : String) : String :=
  ((pySplit '/' f).filter (fun s => s ≠ "")).getLastD ""

/-- Index of the last `.` in a character list, if any. -/
def lastDotIdx (l : List Char) : Option Nat :=
  match firstIdx (fun c => c = '.') l.reverse with
  | some j => some (l.length - 1 - j)
  | none => none

/-- Model of `pathlib.PurePath.stem` applied to a file name: drop the final
extension when the last dot is neither the first nor the last character. -/
def pyStem (name : String) : String :=
  match lastDotIdx name.data with
  | some i =>
    if 0 < i ∧ i < name.data.length - 1 then String.mk (name.data.take i) else name
  | none => name

/-- `Path(f).stem` from the source. -/
def pathStem (f : String) : String := pyStem (pathName f)

def isUpperAZ (c : Char) : Bool := 'A' ≤ c && c ≤ 'Z'

def isLowerAZ (c : Char) : Bool := 'a' ≤ c && c ≤ 'z'

/-- Model of `re.match(r'^([A-Z][a-z]+)', filename)`: an upper-case letter
followed by the maximal nonempty run of lower-case letters. -/
def leadingCapWord (l : List Char) : Option (List Char) :=
  match l with
  | [] => none
  | c :: rest =>
    if isUpperAZ c then
      let run := rest.takeWhile isLowerAZ
      if run.isEmpty then none else some (c :: run)
    else none

/-- Per-file feature inference from `extract_feature_names`: scan the `/`-split
segments for the first architectural-layer name; at index `i > 0` the feature
is the lower-cased preceding segment; at index `0` the loop breaks with no
token and the fallback is skipped; with no layer segment at all, the fallback
extracts the leading capitalized word of the file stem, lower-cased. -/
def featureOfFile (f : String) : Option String :=
  match firstIdx isLayer (pySplit '/' f) with
  | some i => if 0 < i then some (lowerStr ((pySplit '/' f).getD (i - 1) "")) else none
  | none =>
    match leadingCapWord (pathStem f).data with
    | some w => some (String.mk (w.map Char.toLower))
    | none => none

/-- Add to the model of a Python `set` (duplicate-free list). -/
def insertNew (x : String) (l : List String) : List String :=
  if l.contains x then l else l ++ [x]

/-- `extract_feature_names` from the source (the set modeled as a
duplicate-free list in insertion order). -/
def extract_feature_names (javaFiles : List String) : List String :=
  javaFiles.foldl
    (fun acc f => match featureOfFile f with | some n => insertNew n acc | none => acc) []

/-! ### The environment: external processes and the filesystem -/

/-- Outcome of one `subprocess.run(..., timeout=90)` call: either the child
completed with an exit code and captured stderr, or the timeout expired
(Python raises `subprocess.TimeoutExpired`). -/
inductive RunResult where
  | completed (exitCode : Int) (stderr : String)
  | timedOut
deriving DecidableEq

/-- The exception that escapes `check_build`, which has no `try`/`except`. -/
inductive BuildExn where
  | timeoutExpired
deriving DecidableEq

/-- One invocation's external world: the intercepted command, the result of
`git diff --cached --name-only` (exit code and stdout), the filesystem, and
what the two possible build-tool invocations would do. -/
structure Env where
  command : String
  gitExit : Int
  gitOut : String
  fs : String → Bool
  gradleRun : RunResult
  mavenRun : RunResult

/-- `get_staged_files` from the source: nonzero git exit yields `[]`;
otherwise stdout is stripped, split on newlines, each line stripped,
empty lines dropped. -/
def get_staged_files (env : Env) : List String :=
  if env.gitExit ≠ 0 then []
  else ((pySplit (Char.ofNat 10) (pyStrip env.gitOut)).map pyStrip).filter (fun s => s ≠ "")

/-- `check_build` from the source.  Gradle (a `gradlew` file) takes precedence,
then Maven (a `pom.xml`); with neither, the check is skipped (`.ok none`).
A nonzero exit yields the message with stderr truncated to 300 characters.
`subprocess.TimeoutExpired` is not caught and propagates (`.error`). -/
def check_build (env : Env) : Except BuildExn (Option String) :=
  if env.fs "gradlew" then
    match env.gradleRun with
    | .timedOut => .error .timeoutExpired
    | .completed rc err =>
      if rc ≠ 0 then .ok (some ("Gradle 빌드 실패:\n" ++ pyTake 300 err)) else .ok none
  else if env.fs "pom.xml" then
    match env.mavenRun with
    | .timedOut => .error .timeoutExpired
    | .completed rc err =>
      if rc ≠ 0 then .ok (some ("Maven 빌드 실패:\n" ++ pyTake 300 err)) else .ok none
  else .ok none

/-! ### Documentation policy: `check_docs` and `check_staged_docs` -/

def catalogPath : String := "src/docs/ERROR_MESSAGES.md"

def catalogMissingMsg : String :=
  "📄 ERROR_MESSAGES.md가 존재하지 않습니다 → src/docs/ERROR_MESSAGES.md 생성 필요"

def catalogNotStagedMsg : String :=
  "⚠️ ERROR_MESSAGES.md가 이번 커밋에 포함되지 않았습니다. 새 에러 코드 추가가 필요하지 않은지 확인하세요"

def specPathLower (feature : String) : String :=
  "src/docs/" ++ feature ++ "_기능명세서.md"

def specPathCap (feature : String) : String :=
  "src/docs/" ++ pyCapitalize feature ++ "_기능명세서.md"

def archPath (feature : String) : String :=
  "src/docs/architecture/" ++ feature ++ ".md"

def guidePath (feature : String) : String :=
  "src/docs/user-guide/" ++ feature ++ ".md"

def specLine (feature : String) : String :=
  "  - 기능명세서: src/docs/" ++ feature ++ "_기능명세서.md"

def archLine (feature : String) : String :=
  "  - 아키텍처 설명서: src/docs/architecture/" ++ feature ++ ".md"

def guideLine (feature : String) : String :=
  "  - 사용자매뉴얼: src/docs/user-guide/" ++ feature ++ ".md"

/-- The `missing` list accumulated per feature in `check_docs`. -/
def featureMissing (fs : String → Bool) (feature : String) : List String :=
  (if !(fs (specPathLower feature) || fs (specPathCap feature)) then [specLine feature] else [])
  ++ (if !(fs (archPath feature)) then [archLine feature] else [])
  ++ (if !(fs (guidePath feature)) then [guideLine feature] else [])

def featureHeader (feature : String) : String :=
  "📁 기능 '" ++ feature ++ "' 관련 문서 누락:\n"

/-- The single grouped error appended per feature when anything is missing. -/
def featureEntry (fs : String → Bool) (feature : String) : Option String :=
  if (featureMissing fs feature).isEmpty then none
  else some (featureHeader feature ++ joinSep "\n" (featureMissing fs feature))

/-- Recognize the grouped error belonging to one feature by its header. -/
def isEntryFor (feature e : String) : Bool := strStartsWith e (featureHeader feature)

/-- The feature name contains no apostrophe (the delimiter the grouped error
message quotes the feature name with). -/
def noQuote (s : String) : Bool := s.data.all (fun c => c != quoteCh)

/-- The global ERROR_MESSAGES.md block at the top of `check_docs`. -/
def globalDocErrors (fs : String → Bool) (staged : List String) : List String :=
  if !(fs catalogPath) then [catalogMissingMsg]
  else if !(staged.any (fun f => strContainsB f "ERROR_MESSAGES.md")) then [catalogNotStagedMsg]
  else []

/-- `check_docs` from the source: the global block, then one grouped entry per
feature with missing documents. -/
def check_docs (fs : String → Bool) (featureNames : List String) (staged : List String) :
    List String :=
  globalDocErrors fs staged ++ featureNames.filterMap (featureEntry fs)

def stagedDocsWarning : String :=
  "⚠️ 이번 커밋에 src/docs/ 하위 문서가 하나도 포함되지 않았습니다.\n   기능 코드를 변경했다면 관련 문서도 함께 커밋하세요."

/-- `check_staged_docs` from the source. -/
def check_staged_docs (staged : List String) : Option String :=
  if (staged.filter (fun f => strStartsWith f "src/docs/")).isEmpty then some stagedDocsWarning
  else none

/-! ### `main` -/

/-- The staged-file filter from `main`: `.java` extension, `"src/main"`
a substring of the path, and `"test"` not a substring of the lower-cased path. -/
def isQualifying (f : String) : Bool :=
  strEndsWithB f ".java" && strContainsB f "src/main" && !(strContainsB (lowerStr f) "test")

def stagedOf (env : Env) : List String := get_staged_files env

def javaChangesOf (env : Env) : List String := (stagedOf env).filter isQualifying

def featuresOf (env : Env) : List String := extract_feature_names (javaChangesOf env)

def buildErrEntry : Option String → List String
  | some m => ["❌ " ++ m]
  | none => []

/-- The `all_errors` list of `main`, given the build check's result: the build
entry, then (only when at least one feature was inferred) the doc errors,
then the staged-docs warning. -/
def allErrorsOf (env : Env) (buildErr : Option String) : List String :=
  buildErrEntry buildErr
  ++ (if (featuresOf env).isEmpty then [] else check_docs env.fs (featuresOf env) (stagedOf env))
  ++ (match check_staged_docs (stagedOf env) with | some w => [w] | none => [])

def headerOf (javaCount : Nat) (featureNames : List String) : String :=
  "🚫 커밋 전 문서 체크리스트 미완료\n" ++
  "━━━━━━━━━━━━━━━━━━━━━━━━━━━━━\n" ++
  "변경된 Java 파일: " ++ toString javaCount ++ "개\n" ++
  "감지된 기능: " ++ (if featureNames.isEmpty then "추출 실패" else joinSep ", " featureNames) ++ "\n" ++
  "━━━━━━━━━━━━━━━━━━━━━━━━━━━━━\n\n"

def footerMsg : String :=
  "\n\n━━━━━━━━━━━━━━━━━━━━━━━━━━━━━\n" ++
  "📋 문서를 작성/업데이트한 후 다시 커밋하세요.\n" ++
  "   참고: CLAUDE.md의 Feature Development Completion Checklist"

/-- What one invocation does: exit silently with status 0 (allow), print the
deny payload with the given reason, or crash on an uncaught exception. -/
inductive Outcome where
  | allowSilent
  | deny (reason : String)
  | crash (e : BuildExn)
deriving DecidableEq

/-- `main` from the source. -/
def main (env : Env) : Outcome :=
  if !(is_git_commit env.command) then .allowSilent
  else if (stagedOf env).isEmpty then .allowSilent
  else if (javaChangesOf env).isEmpty then .allowSilent
  else
    match check_build env with
    | .error e => .crash e
    | .ok buildErr =>
      let errs := allErrorsOf env buildErr
      if errs.isEmpty then .allowSilent
      else .deny (headerOf (javaChangesOf env).length (featuresOf env) ++
                  joinSep "\n\n" errs ++ footerMsg)

def isDeny : Outcome → Bool
  | .deny _ => true
  | _ => false

def reasonStr : Outcome → String
  | .deny r => r
  | _ => ""

/-! ### Spec-side predicates (from the specification's words, for comparison) -/

/-- The specification's reading of the classifier: the command contains
`git`, whitespace, `commit` as whole words (a word boundary on each side). -/
def GCOccurrence (l : List Char) : Prop :=
  ∃ a ws b, l = a ++ gitL ++ ws ++ commitL ++ b ∧ ws ≠ [] ∧
    (∀ c ∈ ws, isWsCh c = true) ∧
    (∀ c, a.getLast? = some c → isWordCh c = false) ∧
    (∀ c, b.head? = some c → isWordCh c = false)

/-- Generalized boundary condition used while scanning: the character before
the current position (tracked by `prevWord` when the consumed text `a` is
empty) must not be a word character. -/
def BoundaryOk (prevWord : Bool) (a : List Char) : Prop :=
  (a = [] → prevWord = false) ∧ (∀ c, a.getLast? = some c → isWordCh c = false)

/-! ### Concrete environments used by the claim theorems -/

/-- A staged main-source path whose feature inference finds the `controller`
layer segment at index 5, preceded by `attendance`. -/
def attendancePath : String :=
  "src/main/java/com/erp/attendance/controller/AttendanceController.java"

/-- Filesystem with the error catalog and all three attendance documents. -/
def fsAllDocs : String → Bool := fun p =>
  p == "src/docs/ERROR_MESSAGES.md" || p == "src/docs/attendance_기능명세서.md" ||
  p == "src/docs/architecture/attendance.md" || p == "src/docs/user-guide/attendance.md"

/-- Filesystem with the catalog, the attendance spec and architecture note,
but no user guide. -/
def fsGuideMissing : String → Bool := fun p =>
  p == "src/docs/ERROR_MESSAGES.md" || p == "src/docs/attendance_기능명세서.md" ||
  p == "src/docs/architecture/attendance.md"

/-- Every document present, build skipped, but nothing under `src/docs/`
staged: only the two warning-grade messages can fire. -/
def envWarnOnly : Env :=
  { command := "git commit -m update", gitExit := 0, gitOut := attendancePath,
    fs := fsAllDocs, gradleRun := .completed 0 "", mavenRun := .completed 0 "" }

/-- A qualifying staged file from which no feature can be inferred
(no layer segment, and the stem `ABC` has no `[A-Z][a-z]+` match),
on an empty filesystem (in particular the error catalog is missing). -/
def envNoFeature : Env :=
  { command := "git commit -m update", gitExit := 0, gitOut := "src/main/java/ABC.java",
    fs := fun _ => false, gradleRun := .completed 0 "", mavenRun := .completed 0 "" }

/-- A Gradle project whose `./gradlew compileJava -q` exceeds the 90 s timeout. -/
def envTimeout : Env :=
  { command := "git commit", gitExit := 0, gitOut := attendancePath,
    fs := fun p => p == "gradlew", gradleRun := .timedOut, mavenRun := .completed 0 "" }

/-- Catalog missing (empty filesystem), one feature inferred. -/
def envMissingCatalog : Env :=
  { command := "git commit -m update", gitExit := 0, gitOut := attendancePath,
    fs := fun _ => false, gradleRun := .completed 0 "", mavenRun := .completed 0 "" }

/-- The staged-file query fails (exit 1). -/
def envGitFail : Env :=
  { command := "git commit -m update", gitExit := 1, gitOut := "ignored",
    fs := fun _ => false, gradleRun := .completed 0 "", mavenRun := .completed 0 "" }

/-- A command that mentions the words only inside larger tokens. -/
def envNotCommit : Env :=
  { command := "ls mygit committed", gitExit := 0, gitOut := attendancePath,
    fs := fun _ => false, gradleRun := .completed 0 "", mavenRun := .completed 0 "" }

/-- A Gradle project whose compile exits nonzero, with all documents present. -/
def envBuildFail : Env :=
  { command := "git commit -m update", gitExit := 0, gitOut := attendancePath,
    fs := fun p => p == "gradlew" || fsAllDocs p,
    gradleRun := .completed 1 "error: cannot find symbol", mavenRun := .completed 0 "" }

/-! ## Helper lemmas: string primitives -/

theorem strData_append (a b : String) : (a ++ b).data = a.data ++ b.data := by
  cases a
  cases b
  rfl

theorem strEq_of_data {a b : String} (h : a.data = b.data) : a = b := by
  cases a
  cases b
  exact congrArg String.mk h

theorem startsWithL_iff (p l : List Char) : startsWithL l p = true ↔ ∃ t, l = p ++ t := by
  induction p generalizing l with
  | nil => simp [startsWithL]
  | cons b bs ih =>
    cases l with
    | nil => simp [startsWithL]
    | cons a as =>
      simp only [startsWithL, Bool.and_eq_true, beq_iff_eq, ih]
      constructor
      · rintro ⟨rfl, t, rfl⟩
        exact ⟨t, rfl⟩
      · rintro ⟨t, h⟩
        rw [List.cons_append] at h
        injection h with h1 h2
        exact ⟨h1, t, h2⟩

theorem containsL_iff (p l : List Char) : containsL l p = true ↔ ∃ a b, l = a ++ p ++ b := by
  induction l with
  | nil =>
    simp only [containsL, startsWithL_iff]
    constructor
    · rintro ⟨t, h⟩
      exact ⟨[], t, by simpa using h⟩
    · rintro ⟨a, b, h⟩
      obtain ⟨h1, rfl⟩ := List.append_eq_nil.mp h.symm
      obtain ⟨rfl, rfl⟩ := List.append_eq_nil.mp h1
      exact ⟨[], rfl⟩
  | cons c rest ih =>
    simp only [containsL, Bool.or_eq_true, startsWithL_iff, ih]
    constructor
    · rintro (⟨t, ht⟩ | ⟨a, b, hab⟩)
      · exact ⟨[], t, by simpa using ht⟩
      · exact ⟨c :: a, b, by rw [hab]; simp⟩
    · rintro ⟨a, b, h⟩
      cases a with
      | nil => exact Or.inl ⟨b, by simpa using h⟩
      | cons a0 as =>
        rw [List.cons_append, List.cons_append] at h
        injection h with h1 h2
        exact Or.inr ⟨as, b, h2⟩

theorem endsWithL_iff (p l : List Char) : endsWithL l p = true ↔ ∃ a, l = a ++ p := by
  unfold endsWithL
  rw [startsWithL_iff]
  constructor
  · rintro ⟨t, h⟩
    refine ⟨t.reverse, ?_⟩
    have := congrArg List.reverse h
    simpa using this
  · rintro ⟨a, rfl⟩
    exact ⟨a.reverse, by simp⟩

theorem strContainsB_iff (s p : String) :
    strContainsB s p = true ↔ ∃ a b, s.data = a ++ p.data ++ b :=
  containsL_iff p.data s.data

theorem strEndsWithB_iff (s p : String) :
    strEndsWithB s p = true ↔ ∃ a, s.data = a ++ p.data :=
  endsWithL_iff p.data s.data

theorem strContainsB_append_left (s t p : String) (h : strContainsB s p = true) :
    strContainsB (s ++ t) p = true := by
  obtain ⟨a, b, hab⟩ := (strContainsB_iff s p).mp h
  exact (strContainsB_iff _ p).mpr ⟨a, b ++ t.data, by rw [strData_append, hab]; simp⟩

theorem strContainsB_append_right (s t p : String) (h : strContainsB t p = true) :
    strContainsB (s ++ t) p = true := by
  obtain ⟨a, b, hab⟩ := (strContainsB_iff t p).mp h
  exact (strContainsB_iff _ p).mpr ⟨s.data ++ a, b, by rw [strData_append, hab]; simp⟩

theorem strContainsB_self (s : String) : strContainsB s s = true :=
  (strContainsB_iff s s).mpr ⟨[], [], by simp⟩

theorem strContainsB_trans (s m p : String) (h1 : strContainsB s m = true)
    (h2 : strContainsB m p = true) : strContainsB s p = true := by
  obtain ⟨a, b, hab⟩ := (strContainsB_iff s m).mp h1
  obtain ⟨c, d, hcd⟩ := (strContainsB_iff m p).mp h2
  refine (strContainsB_iff s p).mpr ⟨a ++ c, d ++ b, ?_⟩
  rw [hab, hcd]
  simp

theorem joinSep_contains_of_mem (sep x : String) (l : List String) (h : x ∈ l) :
    strContainsB (joinSep sep l) x = true := by
  induction l with
  | nil => simp at h
  | cons y ys ih =>
    cases ys with
    | nil =>
      rcases List.mem_singleton.mp h with rfl
      exact strContainsB_self x
    | cons z zs =>
      show strContainsB (y ++ sep ++ joinSep sep (z :: zs)) x = true
      rcases List.mem_cons.mp h with rfl | hmem
      · exact strContainsB_append_left (x ++ sep) _ x
          (strContainsB_append_left x sep x (strContainsB_self x))
      · exact strContainsB_append_right (y ++ sep) _ x (ih hmem)

theorem startsWithL_append_cancel (p u v : List Char) :
    startsWithL (p ++ u) (p ++ v) = startsWithL u v := by
  induction p with
  | nil => rfl
  | cons c cs ih => simp [startsWithL, ih]

theorem startsWithL_head {l : List Char} {c : Char} {p : List Char}
    (h : startsWithL l (c :: p) = true) : l.head? = some c := by
  cases l with
  | nil => simp [startsWithL] at h
  | cons a as =>
    simp only [startsWithL, Bool.and_eq_true, beq_iff_eq] at h
    rw [h.1]
    rfl

/-! ## Helper lemmas: takeWhile/dropWhile, getLast? -/

theorem takeWhile_append_of_all (p : Char → Bool) (ws rest : List Char)
    (h1 : ∀ c ∈ ws, p c = true) (h2 : ∀ c, rest.head? = some c → p c = false) :
    (ws ++ rest).takeWhile p = ws ∧ (ws ++ rest).dropWhile p = rest := by
  induction ws with
  | nil =>
    cases rest with
    | nil => simp
    | cons c rs =>
      have := h2 c rfl
      simp [List.takeWhile_cons, List.dropWhile_cons, this]
  | cons w wsi ih =>
    have hw : p w = true := h1 w (List.mem_cons_self w wsi)
    have := ih (fun c hc => h1 c (List.mem_cons_of_mem w hc))
    simp [List.takeWhile_cons, List.dropWhile_cons, hw, this.1, this.2]

theorem getLastQ_cons_cons (c x : Char) (xs : List Char) :
    (c :: x :: xs).getLast? = (x :: xs).getLast? := by
  simp [List.getLast?_cons_cons]

/-! ## Helper lemmas: the commit-classifier scan -/

theorem headNonWord_iff (l : List Char) :
    headNonWord l = true ↔ ∀ c, l.head? = some c → isWordCh c = false := by
  unfold headNonWord
  cases l with
  | nil => simp
  | cons c cs =>
    simp only [List.head?_cons, Bool.not_eq_true']
    constructor
    · rintro h d hd
      injection hd with hd
      rwa [← hd]
    · intro h
      exact h c rfl

theorem expectCommit_iff (l : List Char) :
    expectCommit l = true ↔
      ∃ b, l = commitL ++ b ∧ ∀ c, b.head? = some c → isWordCh c = false := by
  unfold expectCommit
  simp only [Bool.and_eq_true, startsWithL_iff, headNonWord_iff]
  constructor
  · rintro ⟨⟨b, rfl⟩, h2⟩
    refine ⟨b, rfl, ?_⟩
    rwa [List.drop_left] at h2
  · rintro ⟨b, rfl, hb⟩
    exact ⟨⟨b, rfl⟩, by rwa [List.drop_left]⟩

theorem matchAt_iff (l : List Char) :
    matchGitCommitAt l = true ↔
      ∃ ws b, l = gitL ++ ws ++ commitL ++ b ∧ ws ≠ [] ∧ (∀ c ∈ ws, isWsCh c = true) ∧
        (∀ c, b.head? = some c → isWordCh c = false) := by
  unfold matchGitCommitAt
  simp only [Bool.and_eq_true, startsWithL_iff]
  constructor
  · rintro ⟨⟨rest, rfl⟩, hne, hec⟩
    rw [List.drop_left] at hne hec
    obtain ⟨b, hb, hhead⟩ := (expectCommit_iff _).mp hec
    refine ⟨rest.takeWhile isWsCh, b, ?_, ?_, ?_, hhead⟩
    · conv_lhs => rw [← List.takeWhile_append_dropWhile (p := isWsCh) (l := rest)]
      rw [hb]
      simp
    · intro hempty
      rw [hempty] at hne
      simp at hne
    · intro c hc
      exact List.mem_takeWhile_imp hc
  · rintro ⟨ws, b, rfl, hne, hws, hhead⟩
    have hcfalse : ∀ c, (commitL ++ b).head? = some c → isWsCh c = false := by
      intro c hc
      have hhd : (commitL ++ b).head? = some 'c' := rfl
      rw [hhd] at hc
      injection hc with hc
      rw [← hc]
      decide
    have hsplit := takeWhile_append_of_all isWsCh ws (commitL ++ b) hws hcfalse
    refine ⟨⟨ws ++ (commitL ++ b), by simp⟩, ?_, ?_⟩
    · simp only [List.append_assoc]
      rw [List.drop_left, hsplit.1]
      cases ws with
      | nil => exact absurd rfl hne
      | cons w wsi => simp
    · simp only [List.append_assoc]
      rw [List.drop_left, hsplit.2]
      exact (expectCommit_iff _).mpr ⟨b, rfl, hhead⟩

theorem searchGC_iff (l : List Char) (prev : Bool) :
    searchGC l prev = true ↔
      ∃ a ws b, l = a ++ gitL ++ ws ++ commitL ++ b ∧ ws ≠ [] ∧
        (∀ c ∈ ws, isWsCh c = true) ∧ BoundaryOk prev a ∧
        (∀ c, b.head? = some c → isWordCh c = false) := by
  induction l generalizing prev with
  | nil =>
    refine iff_of_false (by simp [searchGC]) ?_
    rintro ⟨a, ws, b, h, -, -, -, -⟩
    have hlen := congrArg List.length h
    simp [gitL, commitL] at hlen
    omega
  | cons c rest ih =>
    simp only [searchGC, Bool.or_eq_true, Bool.and_eq_true, Bool.not_eq_true']
    rw [matchAt_iff, ih]
    constructor
    · rintro (⟨hprev, ws, b, heq, hne, hws, hhead⟩ | ⟨a, ws, b, heq, hne, hws, hba, hhead⟩)
      · exact ⟨[], ws, b, by simpa using heq, hne, hws, ⟨fun _ => hprev, by simp⟩, hhead⟩
      · refine ⟨c :: a, ws, b, by rw [heq]; simp, hne, hws, ?_, hhead⟩
        constructor
        · intro h
          exact absurd h (List.cons_ne_nil c a)
        · intro d hd
          cases a with
          | nil =>
            have : ([c] : List Char).getLast? = some c := rfl
            rw [this] at hd
            injection hd with hd
            rw [← hd]
            exact hba.1 rfl
          | cons x xs =>
            rw [getLastQ_cons_cons] at hd
            exact hba.2 d hd
    · rintro ⟨a, ws, b, heq, hne, hws, hba, hhead⟩
      cases a with
      | nil =>
        exact Or.inl ⟨hba.1 rfl, ws, b, by simpa using heq, hne, hws, hhead⟩
      | cons a0 as =>
        right
        rw [List.cons_append, List.cons_append, List.cons_append] at heq
        injection heq with h1 h2
        subst h1
        refine ⟨as, ws, b, by simpa using h2, hne, hws, ?_, hhead⟩
        constructor
        · intro h
          subst h
          exact hba.2 c rfl
        · intro d hd
          cases as with
          | nil => simp at hd
          | cons x xs =>
            refine hba.2 d ?_
            rw [getLastQ_cons_cons]
            exact hd

/-! ## Helper lemmas: the layer-segment scan and the filename fallback -/

theorem firstIdx_eq_some (p : String → Bool) (l : List String) (i : Nat)
    (hi : i < l.length) (hp : p (l.getD i "") = true)
    (hmin : ∀ j, j < i → p (l.getD j "") = false) :
    firstIdx p l = some i := by
  induction l generalizing i with
  | nil => simp at hi
  | cons x xs ih =>
    cases i with
    | zero =>
      simp only [List.getD_cons_zero] at hp
      simp [firstIdx, hp]
    | succ n =>
      have hx : p x = false := by
        have := hmin 0 (Nat.succ_pos n)
        simpa using this
      have hrec := ih n (by simpa using hi) (by simpa using hp)
        (fun j hj => by simpa using hmin (j + 1) (by omega))
      simp [firstIdx, hx, hrec]

theorem firstIdx_eq_none (p : String → Bool) (l : List String)
    (h : ∀ x ∈ l, p x = false) : firstIdx p l = none := by
  induction l with
  | nil => rfl
  | cons x xs ih =>
    have hx := h x (List.mem_cons_self x xs)
    have := ih (fun y hy => h y (List.mem_cons_of_mem x hy))
    simp [firstIdx, hx, this]

theorem leadingCapWord_eq_some_iff (s w : List Char) :
    leadingCapWord s = some w ↔
      ∃ c cs t, s = c :: (cs ++ t) ∧ w = c :: cs ∧ isUpperAZ c = true ∧ cs ≠ [] ∧
        (∀ d ∈ cs, isLowerAZ d = true) ∧
        (∀ d, t.head? = some d → isLowerAZ d = false) := by
  constructor
  · intro h
    cases s with
    | nil => simp [leadingCapWord] at h
    | cons c rest =>
      simp only [leadingCapWord] at h
      by_cases hup : isUpperAZ c = true
      · rw [if_pos hup] at h
        by_cases hrun : (rest.takeWhile isLowerAZ).isEmpty = true
        · rw [if_pos hrun] at h
          exact absurd h (by simp)
        · rw [if_neg hrun] at h
          injection h with h
          refine ⟨c, rest.takeWhile isLowerAZ, rest.dropWhile isLowerAZ,
            by rw [List.takeWhile_append_dropWhile], h.symm, hup, ?_, ?_, ?_⟩
          · intro hempty
            rw [hempty] at hrun
            simp at hrun
          · intro d hd
            exact List.mem_takeWhile_imp hd
          · intro d hd
            have := List.head?_dropWhile_not isLowerAZ rest
            rw [hd] at this
            exact this
      · rw [if_neg hup] at h
        exact absurd h (by simp)
  · rintro ⟨c, cs, t, rfl, rfl, hup, hne, hlow, hhead⟩
    have hsplit := takeWhile_append_of_all isLowerAZ cs t hlow hhead
    simp only [leadingCapWord, if_pos hup, hsplit.1]
    cases cs with
    | nil => exact absurd rfl hne
    | cons d ds => simp

/-! ## Helper lemmas: aggregation in `main` -/

theorem main_eq_policy (env : Env) (b : Option String)
    (h1 : is_git_commit env.command = true) (h2 : stagedOf env ≠ [])
    (h3 : javaChangesOf env ≠ []) (hb : check_build env = .ok b) :
    main env = if (allErrorsOf env b).isEmpty then .allowSilent
               else .deny (headerOf (javaChangesOf env).length (featuresOf env) ++
                           joinSep "\n\n" (allErrorsOf env b) ++ footerMsg) := by
  unfold main
  rw [h1]
  have h2' : (stagedOf env).isEmpty = false := by
    cases h : stagedOf env with
    | nil => exact absurd h h2
    | cons x xs => rfl
  have h3' : (javaChangesOf env).isEmpty = false := by
    cases h : javaChangesOf env with
    | nil => exact absurd h h3
    | cons x xs => rfl
  rw [h2', h3', hb]
  simp

theorem allErrorsOf_ne_nil_iff (env : Env) (b : Option String) :
    (allErrorsOf env b ≠ []) ↔
      (b ≠ none ∨ (featuresOf env ≠ [] ∧
        check_docs env.fs (featuresOf env) (stagedOf env) ≠ []) ∨
        check_staged_docs (stagedOf env) ≠ none) := by
  unfold allErrorsOf
  constructor
  · intro h
    by_contra hcon
    push_neg at hcon
    obtain ⟨hb, hdocs, hwarn⟩ := hcon
    apply h
    have e1 : buildErrEntry b = [] := by
      cases b with
      | none => rfl
      | some m => simp at hb
    have e2 : (if (featuresOf env).isEmpty then []
               else check_docs env.fs (featuresOf env) (stagedOf env)) = [] := by
      by_cases hf : (featuresOf env).isEmpty = true
      · rw [if_pos hf]
      · rw [if_neg (by simpa using hf)]
        apply hdocs
        intro hnil
        rw [hnil] at hf
        simp at hf
    have e3 : (match check_staged_docs (stagedOf env) with
               | some w => [w] | none => ([] : List String)) = [] := by
      cases h : check_staged_docs (stagedOf env) with
      | none => rfl
      | some w =>
        rw [h] at hwarn
        simp at hwarn
    rw [e1, e2, e3]
    rfl
  · intro h hnil
    rcases List.append_eq_nil.mp hnil with ⟨hnil1, hnil3⟩
    rcases List.append_eq_nil.mp hnil1 with ⟨he1, he2⟩
    rcases h with hb | ⟨hf, hdocs⟩ | hwarn
    · cases b with
      | none => exact hb rfl
      | some m => simp [buildErrEntry] at he1
    · rw [if_neg (by simpa using hf)] at he2
      exact hdocs he2
    · cases h : check_staged_docs (stagedOf env) with
      | none => exact hwarn h
      | some w =>
        rw [h] at hnil3
        simp at hnil3

theorem isDeny_ite (c : Bool) (r : String) :
    isDeny (if c then Outcome.allowSilent else Outcome.deny r) = !c := by
  cases c <;> rfl

theorem mem_allErrorsOf_docs (env : Env) (b : Option String) (e : String)
    (hf : featuresOf env ≠ [])
    (he : e ∈ check_docs env.fs (featuresOf env) (stagedOf env)) :
    e ∈ allErrorsOf env b := by
  unfold allErrorsOf
  have : (if (featuresOf env).isEmpty then []
          else check_docs env.fs (featuresOf env) (stagedOf env)) =
         check_docs env.fs (featuresOf env) (stagedOf env) := by
    rw [if_neg]
    intro hcon
    rw [List.isEmpty_iff] at hcon
    exact hf hcon
  rw [List.append_assoc]
  apply List.mem_append_right
  rw [this]
  exact List.mem_append_left _ he

/-! ## Helper lemmas: uniqueness of the per-feature grouped entry -/

theorem quote_cancel (q : Char) (x : List Char) :
    ∀ (y s1 s2 : List Char), (∀ c ∈ x, c ≠ q) → (∀ c ∈ y, c ≠ q) →
      startsWithL (y ++ q :: s2) (x ++ q :: s1) = true → x = y := by
  induction x with
  | nil =>
    intro y s1 s2 _ hy h
    cases y with
    | nil => rfl
    | cons b ys =>
      simp only [List.nil_append, List.cons_append, startsWithL, Bool.and_eq_true,
        beq_iff_eq] at h
      exact absurd h.1 (hy b (List.mem_cons_self b ys))
  | cons a xs ih =>
    intro y s1 s2 hx hy h
    cases y with
    | nil =>
      simp only [List.nil_append, List.cons_append, startsWithL, Bool.and_eq_true,
        beq_iff_eq] at h
      exact absurd h.1.symm (hx a (List.mem_cons_self a xs))
    | cons b ys =>
      simp only [List.cons_append, startsWithL, Bool.and_eq_true, beq_iff_eq] at h
      have hxs := ih ys s1 s2 (fun c hc => hx c (List.mem_cons_of_mem a hc))
        (fun c hc => hy c (List.mem_cons_of_mem b hc)) h.2
      rw [h.1, hxs]

theorem noQuote_spec {s : String} (h : noQuote s = true) : ∀ c ∈ s.data, c ≠ quoteCh := by
  intro c hc
  have := List.all_eq_true.mp h c hc
  simpa using this

theorem featureHeader_data (f : String) :
    (featureHeader f).data = "📁 기능 '".data ++ (f.data ++ (quoteCh :: " 관련 문서 누락:\n".data)) := by
  have h1 : (featureHeader f).data = "📁 기능 '".data ++ f.data ++ "' 관련 문서 누락:\n".data := by
    unfold featureHeader
    rw [strData_append, strData_append]
  have h2 : "' 관련 문서 누락:\n".data = quoteCh :: " 관련 문서 누락:\n".data := by decide
  rw [h1, h2, List.append_assoc]

theorem isEntryFor_self (f body : String) : isEntryFor f (featureHeader f ++ body) = true := by
  unfold isEntryFor strStartsWith
  rw [strData_append]
  exact (startsWithL_iff _ _).mpr ⟨body.data, rfl⟩

theorem isEntryFor_determines (f g body : String) (hf : noQuote f = true)
    (hg : noQuote g = true) (h : isEntryFor f (featureHeader g ++ body) = true) : f = g := by
  unfold isEntryFor strStartsWith at h
  rw [strData_append, featureHeader_data, featureHeader_data, List.append_assoc,
    startsWithL_append_cancel] at h
  have hshape : f.data ++ (quoteCh :: " 관련 문서 누락:\n".data) ++ [] =
      f.data ++ quoteCh :: " 관련 문서 누락:\n".data := by simp
  have h' : startsWithL
      (g.data ++ quoteCh :: (" 관련 문서 누락:\n".data ++ body.data))
      (f.data ++ quoteCh :: " 관련 문서 누락:\n".data) = true := by
    have : (g.data ++ (quoteCh :: " 관련 문서 누락:\n".data)) ++ body.data =
        g.data ++ quoteCh :: (" 관련 문서 누락:\n".data ++ body.data) := by simp
    rw [← this]
    exact h
  exact strEq_of_data
    (quote_cancel quoteCh f.data g.data _ _ (noQuote_spec hf) (noQuote_spec hg) h')

theorem isEntryFor_of_head_ne (f m : String) (c : Char) (hm : m.data.head? = some c)
    (hne : c ≠ '📁') : isEntryFor f m = false := by
  by_contra hcon
  rw [Bool.not_eq_false] at hcon
  unfold isEntryFor strStartsWith at hcon
  rw [featureHeader_data] at hcon
  have hfh : "📁 기능 '".data = '📁' :: " 기능 '".data := by decide
  rw [hfh, List.cons_append] at hcon
  have := startsWithL_head hcon
  rw [hm] at this
  injection this with this
  exact hne this

theorem isEntryFor_catalogMissing (f : String) : isEntryFor f catalogMissingMsg = false :=
  isEntryFor_of_head_ne f catalogMissingMsg '📄' rfl (by decide)

theorem isEntryFor_catalogNotStaged (f : String) : isEntryFor f catalogNotStagedMsg = false :=
  isEntryFor_of_head_ne f catalogNotStagedMsg '⚠' rfl (by decide)

theorem countP_global_zero (fs : String → Bool) (staged : List String) (f : String) :
    (globalDocErrors fs staged).countP (isEntryFor f ·) = 0 := by
  unfold globalDocErrors
  by_cases h1 : fs catalogPath
  · rw [if_neg (by simpa using h1)]
    by_cases h2 : (staged.any (fun x => strContainsB x "ERROR_MESSAGES.md")) = true
    · rw [if_neg (by simpa using h2)]
      rfl
    · rw [if_pos (by simpa using h2)]
      simp [List.countP_cons, isEntryFor_catalogNotStaged]
  · rw [if_pos (by simpa [Bool.not_eq_true] using h1)]
    simp [List.countP_cons, isEntryFor_catalogMissing]

theorem countP_entries_notMem (fs : String → Bool) (f : String) (hf : noQuote f = true) :
    ∀ (l : List String), f ∉ l → (∀ g ∈ l, noQuote g = true) →
      (l.filterMap (featureEntry fs)).countP (isEntryFor f ·) = 0 := by
  intro l
  induction l with
  | nil => intro _ _; rfl
  | cons g gs ih =>
    intro hnm hq
    have hrec := ih (fun hc => hnm (List.mem_cons_of_mem g hc))
      (fun x hx => hq x (List.mem_cons_of_mem g hx))
    rw [List.filterMap_cons]
    cases he : featureEntry fs g with
    | none => exact hrec
    | some e =>
      have hfe : isEntryFor f e = false := by
        by_contra hcon
        rw [Bool.not_eq_false] at hcon
        unfold featureEntry at he
        by_cases hm : (featureMissing fs g).isEmpty = true
        · rw [if_pos hm] at he
          exact absurd he (by simp)
        · rw [if_neg hm] at he
          injection he with he
          rw [← he] at hcon
          have := isEntryFor_determines f g _ hf (hq g (List.mem_cons_self g gs)) hcon
          exact hnm (this ▸ List.mem_cons_self g gs)
      simp [List.countP_cons, hfe, hrec]

theorem countP_entries_mem (fs : String → Bool) (f : String) (hf : noQuote f = true) :
    ∀ (l : List String), l.Nodup → f ∈ l → (∀ g ∈ l, noQuote g = true) →
      (l.filterMap (featureEntry fs)).countP (isEntryFor f ·) =
        if (featureMissing fs f).isEmpty then 0 else 1 := by
  intro l
  induction l with
  | nil => intro _ hmem _; simp at hmem
  | cons g gs ih =>
    intro hnd hmem hq
    rw [List.filterMap_cons]
    rcases List.mem_cons.mp hmem with rfl | hmem'
    · have hnotmem : f ∉ gs := (List.nodup_cons.mp hnd).1
      have hzero := countP_entries_notMem fs f hf gs hnotmem
        (fun x hx => hq x (List.mem_cons_of_mem f hx))
      cases he : featureEntry fs f with
      | none =>
        unfold featureEntry at he
        by_cases hm : (featureMissing fs f).isEmpty = true
        · rw [if_pos hm, hzero]
        · rw [if_neg hm] at he
          exact absurd he (by simp)
      | some e =>
        unfold featureEntry at he
        by_cases hm : (featureMissing fs f).isEmpty = true
        · rw [if_pos hm] at he
          exact absurd he (by simp)
        · rw [if_neg hm] at he
          injection he with he
          rw [if_neg hm]
          have hself : isEntryFor f e = true := by
            rw [← he]
            exact isEntryFor_self f _
          simp [List.countP_cons, hself, hzero]
    · have hfg : f ≠ g := by
        rintro rfl
        exact (List.nodup_cons.mp hnd).1 hmem'
      have hrec := ih (List.nodup_cons.mp hnd).2 hmem'
        (fun x hx => hq x (List.mem_cons_of_mem g hx))
      cases he : featureEntry fs g with
      | none => exact hrec
      | some e =>
        have hfe : isEntryFor f e = false := by
          by_contra hcon
          rw [Bool.not_eq_false] at hcon
          unfold featureEntry at he
          by_cases hm : (featureMissing fs g).isEmpty = true
          · rw [if_pos hm] at he
            exact absurd he (by simp)
          · rw [if_neg hm] at he
            injection he with he
            rw [← he] at hcon
            exact hfg (isEntryFor_determines f g _ hf
              (hq g (List.mem_cons_self g gs)) hcon)
        simp [List.countP_cons, hfe, hrec]

/-! ## Helper lemma: a produced entry forces denial and appears in the report -/

theorem main_denies_of_mem (env : Env) (b : Option String) (e : String)
    (h1 : is_git_commit env.command = true) (h2 : stagedOf env ≠ [])
    (h3 : javaChangesOf env ≠ []) (hb : check_build env = .ok b)
    (hmem : e ∈ allErrorsOf env b) :
    isDeny (main env) = true ∧ strContainsB (reasonStr (main env)) e = true := by
  have hne : allErrorsOf env b ≠ [] := by
    intro h
    rw [h] at hmem
    simp at hmem
  have hmain := main_eq_policy env b h1 h2 h3 hb
  have hempty : (allErrorsOf env b).isEmpty = false := by
    cases hE : allErrorsOf env b with
    | nil => exact absurd hE hne
    | cons x xs => rfl
  rw [hempty] at hmain
  rw [if_neg (by simp)] at hmain
  constructor
  · rw [hmain]
    rfl
  · rw [hmain]
    show strContainsB (headerOf (javaChangesOf env).length (featuresOf env) ++
      joinSep "\n\n" (allErrorsOf env b) ++ footerMsg) e = true
    exact strContainsB_append_left _ footerMsg e
      (strContainsB_append_right _ _ e (joinSep_contains_of_mem _ _ _ hmem))

/-! ## Claim theorems -/

/-- **C1, counterexample.** The claim says a warning alone never denies the
commit.  In `envWarnOnly` every document exists, the build is skipped
(`check_build` returns no error), and no per-feature document is missing, so
no blocking entry exists among the build, global and per-feature checks; the
produced entries are exactly the two warning-grade messages (catalog present
but not staged, and nothing staged under `src/docs/`) — yet the verdict is
Deny. -/
theorem c1_counterexample :
    isDeny (main envWarnOnly) = true ∧
    check_build envWarnOnly = Except.ok none ∧
    envWarnOnly.fs catalogPath = true ∧
    featureMissing envWarnOnly.fs "attendance" = [] ∧
    featuresOf envWarnOnly = ["attendance"] ∧
    allErrorsOf envWarnOnly none = [catalogNotStagedMsg, stagedDocsWarning] :=
  ⟨rfl, rfl, rfl, rfl, rfl, rfl⟩

/-- **C1, amended.** For an invocation that reaches the policy phase (commit
command, nonempty staged set, nonempty qualifying set, build check returned
without raising), the verdict is Deny iff at least one entry — blocking *or*
warning — was produced by the build check, the documentation checks (which run
only when a feature was inferred), or the staged-docs check; a warning alone
does deny the commit. -/
theorem c1_amended (env : Env) (b : Option String)
    (h1 : is_git_commit env.command = true) (h2 : stagedOf env ≠ [])
    (h3 : javaChangesOf env ≠ []) (hb : check_build env = .ok b) :
    isDeny (main env) = true ↔
      (b ≠ none ∨
       (featuresOf env ≠ [] ∧ check_docs env.fs (featuresOf env) (stagedOf env) ≠ []) ∨
       check_staged_docs (stagedOf env) ≠ none) := by
  rw [main_eq_policy env b h1 h2 h3 hb, ← allErrorsOf_ne_nil_iff env b]
  cases hE : allErrorsOf env b with
  | nil => simp [isDeny]
  | cons x xs => simp [isDeny]

/-- **C1 witness.** The amended equivalence applied to the concrete
warnings-only environment: the staged-docs warning is present, so the
verdict is Deny. -/
theorem c1_witness :
    isDeny (main envWarnOnly) = true ∧
    check_staged_docs (stagedOf envWarnOnly) ≠ none := by
  have hw : check_staged_docs (stagedOf envWarnOnly) ≠ none := by
    rw [show check_staged_docs (stagedOf envWarnOnly) = some stagedDocsWarning from rfl]
    simp
  exact ⟨(c1_amended envWarnOnly none rfl (by decide) (by decide) rfl).mpr
    (Or.inr (Or.inr hw)), hw⟩

/-- **C2, counterexample.** The claim says the global error-catalog check runs
regardless of how many features were inferred.  In `envNoFeature` a qualifying
main-source file is staged but the inferred feature set is empty and the
catalog is missing from disk; `check_docs` is skipped entirely, so although
the verdict happens to be Deny (for the staged-docs warning), the report never
mentions the catalog. -/
theorem c2_counterexample :
    featuresOf envNoFeature = [] ∧
    envNoFeature.fs catalogPath = false ∧
    isDeny (main envNoFeature) = true ∧
    strContainsB (reasonStr (main envNoFeature)) "ERROR_MESSAGES.md" = false :=
  ⟨rfl, rfl, rfl, rfl⟩

/-- **C2, amended.** The global error-catalog check runs only when the
inferred feature set is nonempty: in that case, if the catalog does not exist
on disk the verdict is Deny and the report mentions the catalog path. -/
theorem c2_amended (env : Env) (b : Option String)
    (h1 : is_git_commit env.command = true) (h2 : stagedOf env ≠ [])
    (h3 : javaChangesOf env ≠ []) (hb : check_build env = .ok b)
    (hf : featuresOf env ≠ []) (hcat : env.fs catalogPath = false) :
    isDeny (main env) = true ∧
    strContainsB (reasonStr (main env)) "src/docs/ERROR_MESSAGES.md" = true := by
  have hglobal : globalDocErrors env.fs (stagedOf env) = [catalogMissingMsg] := by
    unfold globalDocErrors
    rw [hcat]
    simp
  have hmem : catalogMissingMsg ∈ check_docs env.fs (featuresOf env) (stagedOf env) := by
    unfold check_docs
    rw [hglobal]
    exact List.mem_append_left _ (List.mem_singleton.mpr rfl)
  have h := main_denies_of_mem env b catalogMissingMsg h1 h2 h3 hb
    (mem_allErrorsOf_docs env b catalogMissingMsg hf hmem)
  exact ⟨h.1, strContainsB_trans _ catalogMissingMsg _ h.2 rfl⟩

/-- **C2 witness.** The amended claim applied to the concrete environment with
one inferred feature and no catalog on disk. -/
theorem c2_witness :
    isDeny (main envMissingCatalog) = true ∧
    strContainsB (reasonStr (main envMissingCatalog)) "src/docs/ERROR_MESSAGES.md" = true :=
  c2_amended envMissingCatalog none rfl (by decide) (by decide) rfl (by decide) rfl

/-- **C3 (code bug).** When the Gradle invocation exceeds the 90-second
timeout, `subprocess.run` raises `TimeoutExpired`; `check_build` has no
handler, so the exception escapes and the whole hook crashes instead of
producing a `Failed`-with-timeout-message verdict as the claim (and the
code's own purpose) requires. -/
theorem c3_timeout_escapes :
    check_build envTimeout = Except.error BuildExn.timeoutExpired ∧
    main envTimeout = Outcome.crash BuildExn.timeoutExpired :=
  ⟨rfl, rfl⟩

/-- **C4, counterexample.** The claim says only a case-insensitive `test`
*path segment* excludes a file.  The path
`src/main/java/com/erp/latest/LatestService.java` has the right extension,
lies under the main source root, and no segment of it lower-cases to `test` —
yet the filter rejects it, because the code tests `"test" not in f.lower()`,
a substring check, and `latest` contains `test`. -/
theorem c4_counterexample :
    isQualifying "src/main/java/com/erp/latest/LatestService.java" = false ∧
    strEndsWithB "src/main/java/com/erp/latest/LatestService.java" ".java" = true ∧
    strContainsB "src/main/java/com/erp/latest/LatestService.java" "src/main" = true ∧
    ((pySplit '/' "src/main/java/com/erp/latest/LatestService.java").all
      (fun seg => lowerStr seg != "test")) = true :=
  ⟨rfl, rfl, rfl, rfl⟩

/-- **C4, amended.** A staged path counts as an in-scope source change iff it
ends in `.java`, contains `src/main` as a substring, and its lower-cased form
does not contain `test` as a substring anywhere — even inside a larger
segment such as `latest`. -/
theorem c4_amended (f : String) :
    isQualifying f = true ↔
      ((∃ a, f.data = a ++ ".java".data) ∧
       (∃ a b, f.data = a ++ "src/main".data ++ b) ∧
       ¬ ∃ a b, (lowerStr f).data = a ++ "test".data ++ b) := by
  unfold isQualifying
  simp only [Bool.and_eq_true, Bool.not_eq_true']
  rw [and_assoc]
  constructor
  · rintro ⟨h1, h2, h3⟩
    refine ⟨(strEndsWithB_iff f ".java").mp h1, (strContainsB_iff f "src/main").mp h2, ?_⟩
    intro hex
    rw [(strContainsB_iff (lowerStr f) "test").mpr hex] at h3
    exact absurd h3 (by simp)
  · rintro ⟨h1, h2, h3⟩
    refine ⟨(strEndsWithB_iff f ".java").mpr h1, (strContainsB_iff f "src/main").mpr h2, ?_⟩
    by_contra hc
    rw [Bool.not_eq_false] at hc
    exact h3 ((strContainsB_iff (lowerStr f) "test").mp hc)

/-- **C4 witness.** The amended characterization applied to a concrete
qualifying path. -/
theorem c4_witness :
    isQualifying attendancePath = true ∧
    ((∃ a, attendancePath.data = a ++ ".java".data) ∧
     (∃ a b, attendancePath.data = a ++ "src/main".data ++ b) ∧
     ¬ ∃ a b, (lowerStr attendancePath).data = a ++ "test".data ++ b) :=
  ⟨rfl, (c4_amended attendancePath).mp rfl⟩

/-- **C6.** A nonzero exit of the `git diff --cached --name-only` query yields
the empty staged set (fail-open), and whenever the staged set is empty the
gate exits silently with Allow, regardless of the filesystem. -/
theorem c6_failOpen_and_empty_allows (env : Env) :
    (env.gitExit ≠ 0 → get_staged_files env = []) ∧
    (get_staged_files env = [] → main env = Outcome.allowSilent) := by
  constructor
  · intro h
    unfold get_staged_files
    rw [if_pos h]
  · intro h
    unfold main
    cases hc : is_git_commit env.command with
    | false => simp
    | true =>
      have h2 : (stagedOf env).isEmpty = true := by
        unfold stagedOf
        rw [h]
        rfl
      rw [h2]
      simp

/-- **C6 witness.** Applied to the concrete environment where git exits 1. -/
theorem c6_witness :
    get_staged_files envGitFail = [] ∧ main envGitFail = Outcome.allowSilent := by
  have h := c6_failOpen_and_empty_allows envGitFail
  have h1 := h.1 (by decide)
  exact ⟨h1, h.2 h1⟩

/-- **C9.** The classifier returns commit exactly when the command contains
`git`, whitespace, `commit` with a word boundary on each side (so the verb as
a whole word, with or without following flags, matches, while occurrences
inside larger tokens do not); and any non-commit classification short-circuits
the whole gate to a silent Allow. -/
theorem c9_classifier :
    (∀ command : String, is_git_commit command = true ↔ GCOccurrence command.data) ∧
    (∀ env : Env, is_git_commit env.command = false → main env = Outcome.allowSilent) := by
  constructor
  · intro s
    unfold is_git_commit GCOccurrence
    rw [searchGC_iff]
    constructor
    · rintro ⟨a, ws, b, heq, hne, hws, hba, hhead⟩
      exact ⟨a, ws, b, heq, hne, hws, hba.2, hhead⟩
    · rintro ⟨a, ws, b, heq, hne, hws, hlast, hhead⟩
      exact ⟨a, ws, b, heq, hne, hws, ⟨fun _ => rfl, hlast⟩, hhead⟩
  · intro env h
    unfold main
    rw [h]
    simp

/-- **C9 witness.** `git commit` itself is classified as a commit, and the
gate allows silently on a command where the words occur only inside larger
tokens. -/
theorem c9_witness :
    is_git_commit "git commit" = true ∧ main envNotCommit = Outcome.allowSilent :=
  ⟨(c9_classifier.1 "git commit").mpr
      ⟨[], [' '], [], by decide, by decide, by decide,
        fun c hc => by simp at hc, fun c hc => by simp at hc⟩,
    c9_classifier.2 envNotCommit rfl⟩

/-- **C10.** A path whose first segment is itself one of the architectural
layer names yields no feature: the scan breaks at index 0 without adding a
token, and the filename fallback is never consulted, so the file contributes
nothing to the feature set. -/
theorem c10_layer_at_root_no_feature (f p0 : String)
    (h0 : (pySplit '/' f).head? = some p0) (hl : isLayer p0 = true) :
    featureOfFile f = none ∧ extract_feature_names [f] = [] := by
  have hidx : firstIdx isLayer (pySplit '/' f) = some 0 := by
    cases hp : pySplit '/' f with
    | nil =>
      rw [hp] at h0
      simp at h0
    | cons x xs =>
      rw [hp] at h0
      injection h0 with h0
      rw [← h0] at hl
      simp [firstIdx, hl]
  have h1 : featureOfFile f = none := by
    unfold featureOfFile
    rw [hidx]
    simp
  refine ⟨h1, ?_⟩
  unfold extract_feature_names
  simp [h1]

/-- **C10 witness.** `controller/AttendanceController.java` yields no feature
even though the filename fallback would have extracted `Attendance`. -/
theorem c10_witness :
    featureOfFile "controller/AttendanceController.java" = none ∧
    extract_feature_names ["controller/AttendanceController.java"] = [] ∧
    leadingCapWord (pathStem "controller/AttendanceController.java").data =
      some "Attendance".data := by
  obtain ⟨h1, h2⟩ :=
    c10_layer_at_root_no_feature "controller/AttendanceController.java" "controller"
      rfl (by decide)
  exact ⟨h1, h2, by decide⟩

/-- **C5.** A failing build (nonzero exit) forces a Deny regardless of the
state of any document: the build check returns the message carrying stderr
truncated to 300 characters, that bound holds, the verdict is Deny and the
report contains the truncated diagnostic; the same holds for the Maven branch;
and with neither build descriptor present the check is skipped (`none`),
which contributes no error. -/
theorem c5_build_failure (env : Env) (rc : Int) (err : String)
    (h1 : is_git_commit env.command = true) (h2 : stagedOf env ≠ [])
    (h3 : javaChangesOf env ≠ [])
    (hg : env.fs "gradlew" = true) (hr : env.gradleRun = .completed rc err)
    (hrc : rc ≠ 0) :
    check_build env = .ok (some ("Gradle 빌드 실패:\n" ++ pyTake 300 err)) ∧
    (pyTake 300 err).data.length ≤ 300 ∧
    isDeny (main env) = true ∧
    strContainsB (reasonStr (main env))
      ("❌ " ++ ("Gradle 빌드 실패:\n" ++ pyTake 300 err)) = true ∧
    (∀ (env' : Env) (rc' : Int) (err' : String),
      env'.fs "gradlew" = false → env'.fs "pom.xml" = true →
      env'.mavenRun = .completed rc' err' → rc' ≠ 0 →
      check_build env' = .ok (some ("Maven 빌드 실패:\n" ++ pyTake 300 err'))) ∧
    (∀ env' : Env, env'.fs "gradlew" = false → env'.fs "pom.xml" = false →
      check_build env' = .ok none) := by
  have hcb : check_build env = .ok (some ("Gradle 빌드 실패:\n" ++ pyTake 300 err)) := by
    unfold check_build
    rw [hg, hr, if_pos (by decide)]
    exact if_pos hrc
  have hmem : ("❌ " ++ ("Gradle 빌드 실패:\n" ++ pyTake 300 err)) ∈
      allErrorsOf env (some ("Gradle 빌드 실패:\n" ++ pyTake 300 err)) := by
    unfold allErrorsOf buildErrEntry
    exact List.mem_append_left _ (List.mem_append_left _ (List.mem_cons_self _ _))
  have hden := main_denies_of_mem env _ _ h1 h2 h3 hcb hmem
  refine ⟨hcb, ?_, hden.1, hden.2, ?_, ?_⟩
  · show (err.data.take 300).length ≤ 300
    rw [List.length_take]
    omega
  · intro env' rc' err' hga hpom hm hrc'
    unfold check_build
    rw [hga, hpom, hm, if_neg (by decide), if_pos (by decide)]
    exact if_pos hrc'
  · intro env' hga hpom
    unfold check_build
    rw [hga, hpom]
    simp

/-- **C5 witness.** Applied to the concrete failing-Gradle environment in
which every required document exists. -/
theorem c5_witness :
    check_build envBuildFail =
      .ok (some ("Gradle 빌드 실패:\n" ++ pyTake 300 "error: cannot find symbol")) ∧
    isDeny (main envBuildFail) = true := by
  have h := c5_build_failure envBuildFail 1 "error: cannot find symbol"
    rfl (by decide) (by decide) rfl rfl (by decide)
  exact ⟨h.1, h.2.2.1⟩

/-- **C7.** Feature inference is a total function following the layered,
first-match-wins algorithm: if the first layer-vocabulary segment of the
`/`-split path sits at position `i > 0`, the feature is the lower-cased
segment at `i - 1`; if no segment is in the layer vocabulary, the result is
the lower-cased leading capitalized word of the file's stem, when one exists
(`none` otherwise, the file being silently dropped); and the leading
capitalized word is exactly an upper-case letter followed by the maximal
nonempty run of lower-case letters. -/
theorem c7_feature_inference :
    (∀ f : String,
      (∀ i, i < (pySplit '/' f).length → isLayer ((pySplit '/' f).getD i "") = true →
        (∀ j, j < i → isLayer ((pySplit '/' f).getD j "") = false) → 0 < i →
          featureOfFile f = some (lowerStr ((pySplit '/' f).getD (i - 1) ""))) ∧
      ((∀ p ∈ pySplit '/' f, isLayer p = false) →
        featureOfFile f =
          (leadingCapWord (pathStem f).data).map
            (fun w => String.mk (w.map Char.toLower)))) ∧
    (∀ s w : List Char, leadingCapWord s = some w ↔
      ∃ c cs t, s = c :: (cs ++ t) ∧ w = c :: cs ∧ isUpperAZ c = true ∧ cs ≠ [] ∧
        (∀ d ∈ cs, isLowerAZ d = true) ∧
        (∀ d, t.head? = some d → isLowerAZ d = false)) := by
  refine ⟨fun f => ⟨?_, ?_⟩, leadingCapWord_eq_some_iff⟩
  · intro i hi hp hmin hpos
    unfold featureOfFile
    rw [firstIdx_eq_some isLayer _ i hi hp hmin]
    simp [hpos]
  · intro hnone
    unfold featureOfFile
    rw [firstIdx_eq_none isLayer _ hnone]
    cases h : leadingCapWord (pathStem f).data with
    | none => rfl
    | some w => rfl

/-- **C7 witness.** The layer rule applied to a concrete path: `service` is
the first layer segment, at index 6, so the feature is the preceding segment
`attendance`. -/
theorem c7_witness :
    featureOfFile "src/main/java/com/erp/attendance/service/AttendanceService.java" =
      some "attendance" := by
  have h := (c7_feature_inference.1
      "src/main/java/com/erp/attendance/service/AttendanceService.java").1 6
    (by decide) (by decide)
    (by intro j hj; interval_cases j <;> decide) (by decide)
  exact h.trans (by decide)

/-- **C8.** All missing required documents of one feature are grouped into
exactly one entry of `check_docs` listing every missing path: the grouped
entry is a member of the output, exactly one output entry belongs to the
feature (none when nothing is missing), a feature missing exactly the user
guide has exactly that one path in its missing list, and any feature with a
missing document forces a Deny. -/
theorem c8_grouped_missing_docs :
    (∀ (fs : String → Bool) (staged features : List String) (feature : String),
      features.Nodup → feature ∈ features → (∀ g ∈ features, noQuote g = true) →
      (featureMissing fs feature ≠ [] →
        (featureHeader feature ++ joinSep "\n" (featureMissing fs feature)) ∈
          check_docs fs features staged ∧
        (check_docs fs features staged).countP (isEntryFor feature ·) = 1) ∧
      (featureMissing fs feature = [] →
        (check_docs fs features staged).countP (isEntryFor feature ·) = 0)) ∧
    (∀ (fs : String → Bool) (feature : String),
      (fs (specPathLower feature) = true ∨ fs (specPathCap feature) = true) →
      fs (archPath feature) = true → fs (guidePath feature) = false →
      featureMissing fs feature = [guideLine feature]) ∧
    (∀ (env : Env) (b : Option String) (feature : String),
      is_git_commit env.command = true → stagedOf env ≠ [] → javaChangesOf env ≠ [] →
      check_build env = .ok b → feature ∈ featuresOf env →
      featureMissing env.fs feature ≠ [] → isDeny (main env) = true) := by
  refine ⟨?_, ?_, ?_⟩
  · intro fs staged features feature hnd hmem hq
    have hqf : noQuote feature = true := hq feature hmem
    constructor
    · intro hne
      have hisE : (featureMissing fs feature).isEmpty = false := by
        cases hE : featureMissing fs feature with
        | nil => exact absurd hE hne
        | cons x xs => rfl
      have hentry : featureEntry fs feature =
          some (featureHeader feature ++ joinSep "\n" (featureMissing fs feature)) := by
        unfold featureEntry
        rw [hisE]
        simp
      constructor
      · unfold check_docs
        exact List.mem_append_right _
          (List.mem_filterMap.mpr ⟨feature, hmem, hentry⟩)
      · unfold check_docs
        rw [List.countP_append, countP_global_zero,
          countP_entries_mem fs feature hqf features hnd hmem hq, hisE]
        rfl
    · intro hnil
      have hisE : (featureMissing fs feature).isEmpty = true := by
        rw [hnil]
        rfl
      unfold check_docs
      rw [List.countP_append, countP_global_zero,
        countP_entries_mem fs feature hqf features hnd hmem hq, hisE]
      rfl
  · intro fs feature hspec harch hguide
    have hs : (fs (specPathLower feature) || fs (specPathCap feature)) = true := by
      rcases hspec with h | h <;> simp [h]
    unfold featureMissing
    rw [hs, harch, hguide]
    rfl
  · intro env b feature h1 h2 h3 hb hmem hne
    have hisE : (featureMissing env.fs feature).isEmpty = false := by
      cases hE : featureMissing env.fs feature with
      | nil => exact absurd hE hne
      | cons x xs => rfl
    have hentry : featureEntry env.fs feature =
        some (featureHeader feature ++ joinSep "\n" (featureMissing env.fs feature)) := by
      unfold featureEntry
      rw [hisE]
      simp
    have hf : featuresOf env ≠ [] := by
      intro hc
      rw [hc] at hmem
      simp at hmem
    have hdocmem : (featureHeader feature ++ joinSep "\n" (featureMissing env.fs feature)) ∈
        check_docs env.fs (featuresOf env) (stagedOf env) := by
      unfold check_docs
      exact List.mem_append_right _ (List.mem_filterMap.mpr ⟨feature, hmem, hentry⟩)
    exact (main_denies_of_mem env b _ h1 h2 h3 hb
      (mem_allErrorsOf_docs env b _ hf hdocmem)).1

/-- **C8 witness.** With the user guide missing and the other two documents
present, `attendance`'s missing list is exactly the guide path and exactly one
grouped entry for the feature appears in the check output. -/
theorem c8_witness :
    (featureHeader "attendance" ++
      joinSep "\n" (featureMissing fsGuideMissing "attendance")) ∈
      check_docs fsGuideMissing ["attendance"] [] ∧
    (check_docs fsGuideMissing ["attendance"] []).countP (isEntryFor "attendance" ·) = 1 ∧
    featureMissing fsGuideMissing "attendance" = [guideLine "attendance"] := by
  have h1 := ((c8_grouped_missing_docs.1 fsGuideMissing [] ["attendance"] "attendance"
    (by decide) (by decide) (by decide)).1 (by decide))
  have h2 := c8_grouped_missing_docs.2.1 fsGuideMissing "attendance" (Or.inl rfl) rfl rfl
  exact ⟨h1.1, h1.2, h2⟩

end PreCommitDocsCheck
